import Mathlib

/-!
# Verification of the "degrees" graph-search core

Shallow embedding of `src/degrees/util.py` (the `Node`, `StackFrontier`,
`QueueFrontier` and `AStarFrontier` classes) and of the search loops in
`src/degrees/degrees.py` (`shortest_path`, `shortest_path_A_STAR`,
`neighbors_for_person`, `load_data`), together with proofs of the testable
properties of the specification.

Modelling conventions:

* States and actions (person ids and movie ids, opaque strings in the source)
  are modelled as `Nat`.
* Python's `Node` holds `state, parent, action, g, f` where `parent` and
  `action` are `None` exactly on the start node; the two cases are the two
  constructors of `SNode`.
* A frontier object is its `self.frontier` list; `add` appends, the three
  `remove` methods are the three `*Remove` functions below.  A raised
  `Exception("empty frontier")` is the `Except.error` branch.
* The `while not frontier.empty()` loops of `degrees.py` are embedded as the
  fuelled recursion `graphSearch`; `SearchResult.outOfFuel` is the fuel
  artefact (the theorems show it never occurs for adequate fuel), and
  `SearchResult.noPath` carries the loop's `explored` variable at exit so the
  specification's statement about the final explored set can be expressed.
-/

namespace Degrees

/-- Search-tree node, from `Node` in `util.py`: `root s g f` is
`Node(state=s, parent=None, action=None, g=g, f=f)` and `child s p a g f` is
`Node(state=s, parent=p, action=a, g=g, f=f)`. -/
inductive SNode : Type where
  | root (state : Nat) (g : Nat) (f : Nat)
  | child (state : Nat) (parent : SNode) (action : Nat) (g : Nat) (f : Nat)
deriving DecidableEq

/-- `node.state`. -/
def SNode.state : SNode → Nat
  | .root s _ _ => s
  | .child s _ _ _ _ => s

/-- `node.g`. -/
def SNode.g : SNode → Nat
  | .root _ g _ => g
  | .child _ _ _ g _ => g

/-- `node.f`. -/
def SNode.f : SNode → Nat
  | .root _ _ f => f
  | .child _ _ _ _ f => f

/-- Length of the parent chain (not a field of the Python object; used to
state the invariants). -/
def SNode.depth : SNode → Nat
  | .root _ _ _ => 0
  | .child _ p _ _ _ => p.depth + 1

/-- The path reconstructed from a node by the `while node.parent is not None`
loop in `degrees.py`: collect `(node.action, node.state)` pairs walking up the
parent chain, then reverse. -/
def pathOf : SNode → List (Nat × Nat)
  | .root _ _ _ => []
  | .child s p a _ _ => pathOf p ++ [(a, s)]

/-- `contains_state` of `StackFrontier` / `QueueFrontier` / `AStarFrontier`
(the three bodies are identical):
`any(node.state == state for node in self.frontier)`. -/
def contains_state (state : Nat) (frontier : List SNode) : Bool :=
  frontier.any (fun node => node.state == state)

/-- The error raised by `remove` on an empty frontier; the source raises
`Exception("empty frontier")`, which the specification names
`EmptyFrontierError`. -/
abbrev EmptyFrontierError := String

/-- `StackFrontier.remove`: take `self.frontier[-1]`, keep
`self.frontier[:-1]`. -/
def stackRemove (frontier : List SNode) : Except EmptyFrontierError (SNode × List SNode) :=
  match frontier.getLast? with
  | none => .error "empty frontier"
  | some node => .ok (node, frontier.dropLast)

/-- `QueueFrontier.remove`: take `self.frontier[0]`, keep
`self.frontier[1:]`. -/
def queueRemove (frontier : List SNode) : Except EmptyFrontierError (SNode × List SNode) :=
  match frontier with
  | [] => .error "empty frontier"
  | node :: rest => .ok (node, rest)

/-- The index computed by `min(range(len(self.frontier)), key=lambda i:
self.frontier[i].f)` in `AStarFrontier.remove`: the first index attaining the
minimal `f` (Python's `min` keeps the earlier element on ties). -/
def minFIdx : List SNode → Nat
  | [] => 0
  | [_] => 0
  | a :: b :: l =>
    let j := minFIdx (b :: l)
    if ((b :: l).getD j b).f < a.f then j + 1 else 0

/-- `AStarFrontier.remove`: `self.frontier.pop(lowest_index)` where
`lowest_index` is the first index of minimal `f`. -/
def astarRemove (frontier : List SNode) : Except EmptyFrontierError (SNode × List SNode) :=
  match frontier with
  | [] => .error "empty frontier"
  | a :: l =>
    let i := minFIdx (a :: l)
    .ok ((a :: l).getD i a, (a :: l).eraseIdx i)

/-- A frontier-selection policy as consumed by the search driver, which only
ever calls `remove` after the `while not frontier.empty()` test: the
`Except` error collapses to `none`. -/
def toPolicy (remove : List SNode → Except EmptyFrontierError (SNode × List SNode)) :
    List SNode → Option (SNode × List SNode) :=
  fun frontier => (remove frontier).toOption

/-- LIFO policy (`StackFrontier`). -/
def stackPolicy : List SNode → Option (SNode × List SNode) := toPolicy stackRemove

/-- FIFO policy (`QueueFrontier`). -/
def queuePolicy : List SNode → Option (SNode × List SNode) := toPolicy queueRemove

/-- Priority policy (`AStarFrontier`). -/
def astarPolicy : List SNode → Option (SNode × List SNode) := toPolicy astarRemove

/-- Child-node construction of `shortest_path`:
`Node(state=person_id, parent=node, action=movie_id)` with the defaulted
`g=0, f=0`. -/
def mkChildBFS (node : SNode) (action state : Nat) : SNode :=
  .child state node action 0 0

/-- Child-node construction of `shortest_path_A_STAR`:
`child_g = node.g + 1; child_f = child_g + h(person_id)`. -/
def mkChildAStar (h : Nat → Nat) (node : SNode) (action state : Nat) : SNode :=
  .child state node action (node.g + 1) (node.g + 1 + h state)

/-- The neighbour-expansion step of both search loops:
`for movie_id, person_id in neighbors_for_person(node.state): if not
frontier.contains_state(person_id) and person_id not in explored: frontier.add(child)`.
`frontier.add` appends, and `contains_state` is checked against the frontier
as it grows during the loop, hence the `foldl`. -/
def expand (mk : SNode → Nat → Nat → SNode) (node : SNode) (explored : List Nat)
    (frontier : List SNode) (ns : List (Nat × Nat)) : List SNode :=
  ns.foldl
    (fun fr p =>
      if contains_state p.2 fr = false ∧ p.2 ∉ explored then fr ++ [mk node p.1 p.2]
      else fr)
    frontier

/-- Outcome of a search run.  `found` is the reconstructed path, `noPath`
carries the final `explored` set of the exhausted loop (the source returns
`None` there; the explored set is the loop variable at that point), and
`outOfFuel` is the artefact of the fuelled embedding. -/
inductive SearchResult where
  | found (path : List (Nat × Nat))
  | noPath (explored : List Nat)
  | outOfFuel
deriving DecidableEq

/-- The generic search loop shared by `shortest_path` and
`shortest_path_A_STAR` (their `while` loops are textually identical up to the
child construction `mk`): remove a node per the policy, return the
reconstructed path if it is the target, otherwise mark it explored and expand
its neighbours. -/
def graphSearch (pol : List SNode → Option (SNode × List SNode))
    (mk : SNode → Nat → Nat → SNode) (nbrs : Nat → List (Nat × Nat)) (target : Nat) :
    Nat → List SNode → List Nat → SearchResult
  | 0, _, _ => .outOfFuel
  | fuel + 1, frontier, explored =>
    match pol frontier with
    | none => .noPath explored
    | some (node, rest) =>
      if node.state = target then .found (pathOf node)
      else
        graphSearch pol mk nbrs target fuel
          (expand mk node (node.state :: explored) rest (nbrs node.state))
          (node.state :: explored)

/-- `shortest_path(source, target)` from `degrees.py`: the generic loop wired
to `StackFrontier` with default-constructed children, started from
`Node(state=source, parent=None, action=None)`.  `V` lists the states of the
finite graph; `V.length + 1` fuel is enough (proved below). -/
def shortest_path (V : List Nat) (nbrs : Nat → List (Nat × Nat))
    (source target : Nat) : SearchResult :=
  graphSearch stackPolicy mkChildBFS nbrs target (V.length + 1)
    [SNode.root source 0 0] []

/-- `shortest_path_A_STAR(source, target, h)` from `degrees.py`: the generic
loop wired to `AStarFrontier`, started from
`Node(state=source, parent=None, action=None, g=0, f=h(source))`. -/
def shortest_path_A_STAR (h : Nat → Nat) (V : List Nat)
    (nbrs : Nat → List (Nat × Nat)) (source target : Nat) : SearchResult :=
  graphSearch astarPolicy (mkChildAStar h) nbrs target (V.length + 1)
    [SNode.root source 0 (h source)] []

/-- The specification's `find_path(source, target, frontier_policy, heuristic)`
driver: the generic loop with a chosen policy and heuristic, children built
with `g = parent.g + 1`, `f = g + h(state)` as in section 4.3 of the spec and
in `shortest_path_A_STAR`. -/
def find_path (pol : List SNode → Option (SNode × List SNode)) (h : Nat → Nat)
    (V : List Nat) (nbrs : Nat → List (Nat × Nat)) (source target : Nat) : SearchResult :=
  graphSearch pol (mkChildAStar h) nbrs target (V.length + 1)
    [SNode.root source 0 (h source)] []

/-- A path `p = [(a1,s1),...,(ak,sk)]` is valid from `u` to `t` when each
`(ai, si)` is an edge out of the previous state and the path ends at `t`. -/
def validPath (nbrs : Nat → List (Nat × Nat)) : Nat → List (Nat × Nat) → Nat → Prop
  | u, [], t => u = t
  | u, (a, s) :: p, t => (a, s) ∈ nbrs u ∧ validPath nbrs s p t

instance validPath.decidable (nbrs : Nat → List (Nat × Nat)) :
    ∀ u p t, Decidable (validPath nbrs u p t)
  | _, [], _ => by unfold validPath; infer_instance
  | u, (a, s) :: p, t => by
    unfold validPath
    have := validPath.decidable nbrs s p t
    infer_instance

/-- `t` is reachable from `u` in the graph given by `nbrs`. -/
def reachable (nbrs : Nat → List (Nat × Nat)) (u t : Nat) : Prop :=
  ∃ p, validPath nbrs u p t

/-- The finite vertex list `V` is closed under the neighbour function:
every edge out of a vertex stays in `V`. -/
def Closed (V : List Nat) (nbrs : Nat → List (Nat × Nat)) : Prop :=
  ∀ v ∈ V, ∀ p ∈ nbrs v, p.2 ∈ V

instance Closed.decidable (V : List Nat) (nbrs : Nat → List (Nat × Nat)) :
    Decidable (Closed V nbrs) := by unfold Closed; infer_instance

/-- `d` is the true graph distance from `src` to `s`: some valid path has
length `d` and none is shorter. -/
def distEq (nbrs : Nat → List (Nat × Nat)) (src s : Nat) (d : Nat) : Prop :=
  (∃ p, validPath nbrs src p s ∧ p.length = d) ∧
    ∀ p, validPath nbrs src p s → d ≤ p.length

/-- The parent chain of a node is a valid path (stated as a predicate on the
node relative to a start state). -/
def chainValid (nbrs : Nat → List (Nat × Nat)) (src : Nat) (n : SNode) : Prop :=
  validPath nbrs src (pathOf n) n.state

/-- A policy is admissible when it answers `none` exactly on the empty
frontier and otherwise hands back one contained node together with the rest
(as a permutation). -/
def PolicyOk (pol : List SNode → Option (SNode × List SNode)) : Prop :=
  (∀ fr, pol fr = none ↔ fr = []) ∧
    ∀ fr n rest, pol fr = some (n, rest) → fr.Perm (n :: rest)

/-- Both child constructors build a `child` node over the given parent,
action and state. -/
def MkOk (mk : SNode → Nat → Nat → SNode) : Prop :=
  ∀ n a s, ∃ g f, mk n a s = .child s n a g f

/-- Loop invariant of the generic search, independent of the removal policy:
every frontier node carries a valid source path, frontier states are distinct
and unexplored, explored states are reachable, the explored set's out-edges
stay inside explored-or-frontier, the source has been discovered, and the
target is never put into explored. -/
structure Inv (nbrs : Nat → List (Nat × Nat)) (src tgt : Nat) (V : List Nat)
    (frontier : List SNode) (explored : List Nat) : Prop where
  valid : ∀ n ∈ frontier, chainValid nbrs src n
  nodupStates : (frontier.map SNode.state).Nodup
  frNotExplored : ∀ n ∈ frontier, n.state ∉ explored
  exploredReach : ∀ s ∈ explored, reachable nbrs src s
  exploredSub : ∀ s ∈ explored, s ∈ V
  frSub : ∀ n ∈ frontier, n.state ∈ V
  closure : ∀ s ∈ explored, ∀ a u, (a, u) ∈ nbrs s →
    u ∈ explored ∨ u ∈ frontier.map SNode.state
  srcMem : src ∈ explored ∨ src ∈ frontier.map SNode.state
  tgtNotExplored : tgt ∉ explored

/-- Python-dict lookup on an association table mapping an id to a list of
ids (the `movies` set of a person, or the `stars` set of a movie; the other
fields — name, birth, title, year — play no role in the claims).  A `setKey`
prepend shadows older entries, matching dict overwrite. -/
def lookupTbl (k : Nat) : List (Nat × List Nat) → Option (List Nat)
  | [] => none
  | (k', v) :: t => if k' = k then some v else lookupTbl k t

/-- Dict assignment `d[k] = fresh empty set`. -/
def setKey (k : Nat) (t : List (Nat × List Nat)) : List (Nat × List Nat) :=
  (k, []) :: t

/-- `d[k].add(x)` with set semantics; `none` is the `KeyError` when `k` is
not a key of `d`. -/
def addToKey (k x : Nat) : List (Nat × List Nat) → Option (List (Nat × List Nat))
  | [] => none
  | (k', v) :: t =>
    if k' = k then some ((k', if x ∈ v then v else v ++ [x]) :: t)
    else (addToKey k x t).map (fun t' => (k', v) :: t')

/-- One row of `stars.csv` in `load_data`:
`try: people[person_id]["movies"].add(movie_id);
movies[movie_id]["stars"].add(person_id) except KeyError: pass`.
If the first `add` raises, nothing changed; if only the second raises, the
first mutation is kept — the `except` does not roll it back. -/
def loadStar (st : List (Nat × List Nat) × List (Nat × List Nat)) (row : Nat × Nat) :
    List (Nat × List Nat) × List (Nat × List Nat) :=
  match addToKey row.1 row.2 st.1 with
  | none => st
  | some p' =>
    match addToKey row.2 row.1 st.2 with
    | none => (p', st.2)
    | some m' => (p', m')

/-- `load_data`: people rows, then movie rows (each keyed with a fresh empty
set), then star rows; returns the `people` and `movies` tables. -/
def load_data (peopleRows moviesRows : List Nat) (starRows : List (Nat × Nat)) :
    List (Nat × List Nat) × List (Nat × List Nat) :=
  let people := peopleRows.foldl (fun t pid => setKey pid t) []
  let movies := moviesRows.foldl (fun t mid => setKey mid t) []
  starRows.foldl loadStar (people, movies)

/-- `neighbors_for_person`: look up the person's movie set, then collect
`(movie_id, person_id)` pairs over `movies[movie_id]["stars"]`; a missing
movie key raises `KeyError` (the `none` branch), since this lookup is not
guarded by a `try`. -/
def neighbors_for_person (people movies : List (Nat × List Nat)) (pid : Nat) :
    Option (List (Nat × Nat)) :=
  match lookupTbl pid people with
  | none => none
  | some movieIds =>
    movieIds.foldl
      (fun acc mid =>
        match acc, lookupTbl mid movies with
        | some l, some stars => some (l ++ stars.map (fun q => (mid, q)))
        | _, _ => none)
      (some [])

/-- The cross-table consistency produced by the loader: whenever a movie `m`
is in person `p`'s movie set and `m` is a key of the movies table, `p` is in
`m`'s star set. -/
def StarInv (people movies : List (Nat × List Nat)) : Prop :=
  ∀ p l m, lookupTbl p people = some l → m ∈ l →
    ∀ s, lookupTbl m movies = some s → p ∈ s

/-- Additional loop invariant of the FIFO run: frontier depths are
nondecreasing and spread over at most two consecutive levels, every frontier
node sits at its state's true distance, and explored states are no deeper
than any frontier node. -/
structure QInv (nbrs : Nat → List (Nat × Nat)) (src : Nat)
    (frontier : List SNode) (explored : List Nat) : Prop where
  sorted : List.Pairwise (· ≤ ·) (frontier.map SNode.depth)
  spread : ∀ d ∈ frontier.map SNode.depth, ∀ d' ∈ frontier.map SNode.depth, d ≤ d' + 1
  depthDist : ∀ n ∈ frontier, distEq nbrs src n.state n.depth
  exploredLe : ∀ s ∈ explored, ∀ d, distEq nbrs src s d → ∀ n ∈ frontier, d ≤ n.depth

/-- An operation on a frontier object: `add(node)` (an append, in all three
variants) or `remove()`. -/
inductive FrontierOp where
  | push (n : SNode)
  | pop

/-- Run a sequence of frontier operations from a start list, with the given
variant's `remove`; `none` when some `remove` raised on an empty frontier. -/
def applyOps (remove : List SNode → Except EmptyFrontierError (SNode × List SNode)) :
    List FrontierOp → List SNode → Option (List SNode)
  | [], fr => some fr
  | .push n :: ops, fr => applyOps remove ops (fr ++ [n])
  | .pop :: ops, fr =>
    match remove fr with
    | .error _ => none
    | .ok (_, fr') => applyOps remove ops fr'

/-- Concrete two-vertex graph `0 -[5]-> 1` used to instantiate theorems with
hypotheses. -/
def exNbrs : Nat → List (Nat × Nat) := fun s => if s = 0 then [(5, 1)] else []

/-- Its vertex list. -/
def exV : List Nat := [0, 1]

/-- The edgeless graph, for the no-path instantiations. -/
def exNoEdges : Nat → List (Nat × Nat) := fun _ => []

/-! ## Basic lemmas about nodes, paths, `contains_state` -/

theorem pathOf_length (n : SNode) : (pathOf n).length = n.depth := by
  induction n with
  | root s g f => rfl
  | child s p a g f ih => simp [pathOf, SNode.depth, ih]

theorem contains_state_iff (s : Nat) (fr : List SNode) :
    contains_state s fr = true ↔ s ∈ fr.map SNode.state := by
  unfold contains_state
  rw [List.any_eq_true]
  constructor
  · rintro ⟨n, hn, hs⟩
    exact List.mem_map.mpr ⟨n, hn, beq_iff_eq.mp hs⟩
  · intro hs
    obtain ⟨n, hn, hns⟩ := List.mem_map.mp hs
    exact ⟨n, hn, beq_iff_eq.mpr hns⟩

theorem validPath_nil (nbrs : Nat → List (Nat × Nat)) (u t : Nat) :
    validPath nbrs u [] t ↔ u = t := Iff.rfl

theorem validPath_cons (nbrs : Nat → List (Nat × Nat)) (a s : Nat)
    (p : List (Nat × Nat)) (u t : Nat) :
    validPath nbrs u ((a, s) :: p) t ↔ (a, s) ∈ nbrs u ∧ validPath nbrs s p t := Iff.rfl

theorem validPath_append (nbrs : Nat → List (Nat × Nat)) (p q : List (Nat × Nat))
    (u t : Nat) :
    validPath nbrs u (p ++ q) t ↔ ∃ m, validPath nbrs u p m ∧ validPath nbrs m q t := by
  induction p generalizing u with
  | nil =>
    rw [List.nil_append]
    constructor
    · intro hq; exact ⟨u, rfl, hq⟩
    · rintro ⟨m, hm, hq⟩; rw [validPath_nil] at hm; cases hm; exact hq
  | cons x p ih =>
    obtain ⟨a, s⟩ := x
    simp only [List.cons_append, validPath_cons, ih]
    constructor
    · rintro ⟨he, m, h1, h2⟩; exact ⟨m, ⟨he, h1⟩, h2⟩
    · rintro ⟨m, ⟨he, h1⟩, h2⟩; exact ⟨he, m, h1, h2⟩

theorem validPath_singleton (nbrs : Nat → List (Nat × Nat)) (a s u t : Nat) :
    validPath nbrs u [(a, s)] t ↔ (a, s) ∈ nbrs u ∧ s = t := by
  rw [validPath_cons, validPath_nil]

theorem chainValid_root (nbrs : Nat → List (Nat × Nat)) (src g f : Nat) :
    chainValid nbrs src (.root src g f) := by
  simp [chainValid, pathOf, validPath, SNode.state]

theorem chainValid_child (nbrs : Nat → List (Nat × Nat)) (src : Nat) (p : SNode)
    (a s g f : Nat) (hp : chainValid nbrs src p) (he : (a, s) ∈ nbrs p.state) :
    chainValid nbrs src (.child s p a g f) := by
  show validPath nbrs src (pathOf p ++ [(a, s)]) s
  rw [validPath_append]
  exact ⟨p.state, hp, (validPath_singleton nbrs a s p.state s).mpr ⟨he, rfl⟩⟩

theorem chainValid.reachable {nbrs : Nat → List (Nat × Nat)} {src : Nat} {n : SNode}
    (h : chainValid nbrs src n) : reachable nbrs src n.state :=
  ⟨pathOf n, h⟩

/-! ## Graph distance -/

theorem distEq_unique {nbrs : Nat → List (Nat × Nat)} {src s d d' : Nat}
    (h : distEq nbrs src s d) (h' : distEq nbrs src s d') : d = d' := by
  obtain ⟨⟨p, hp, hl⟩, hmin⟩ := h
  obtain ⟨⟨q, hq, hl'⟩, hmin'⟩ := h'
  have h1 := hmin q hq
  have h2 := hmin' p hp
  omega

theorem distEq_zero_iff {nbrs : Nat → List (Nat × Nat)} {src s : Nat}
    (h : distEq nbrs src s 0) : s = src := by
  obtain ⟨⟨p, hp, hl⟩, _⟩ := h
  cases p with
  | nil => exact hp.symm
  | cons x q => simp at hl

theorem reachable_exists_distEq {nbrs : Nat → List (Nat × Nat)} {src s : Nat}
    (h : reachable nbrs src s) : ∃ d, distEq nbrs src s d := by
  obtain ⟨p, hp⟩ := h
  have : ∀ n, ∀ p : List (Nat × Nat), p.length ≤ n → validPath nbrs src p s →
      ∃ d, distEq nbrs src s d := by
    intro n
    induction n with
    | zero =>
      intro p hlen hp
      have : p = [] := List.length_eq_zero.mp (Nat.le_zero.mp hlen)
      subst this
      exact ⟨0, ⟨⟨[], hp, rfl⟩, fun q _ => Nat.zero_le _⟩⟩
    | succ n ih =>
      intro p hlen hp
      by_cases hmin : ∀ q, validPath nbrs src q s → p.length ≤ q.length
      · exact ⟨p.length, ⟨⟨p, hp, rfl⟩, hmin⟩⟩
      · push_neg at hmin
        obtain ⟨q, hq, hql⟩ := hmin
        exact ih q (by omega) hq
  exact this p.length p le_rfl hp

theorem distEq_le_of_path {nbrs : Nat → List (Nat × Nat)} {src s d : Nat}
    (h : distEq nbrs src s d) {p : List (Nat × Nat)} (hp : validPath nbrs src p s) :
    d ≤ p.length := h.2 p hp

/-- A state at distance `d + 1` has a predecessor at distance `d`. -/
theorem distEq_succ_pred {nbrs : Nat → List (Nat × Nat)} {src s d : Nat}
    (h : distEq nbrs src s (d + 1)) :
    ∃ v a, distEq nbrs src v d ∧ (a, s) ∈ nbrs v := by
  obtain ⟨⟨p, hp, hl⟩, hmin⟩ := h
  rcases List.eq_nil_or_concat p with rfl | ⟨q, x, rfl⟩
  · simp at hl
  · obtain ⟨a, s'⟩ := x
    rw [List.concat_eq_append] at hp hl
    rw [validPath_append] at hp
    obtain ⟨v, hq, hstep⟩ := hp
    rw [validPath_singleton] at hstep
    obtain ⟨he, rfl⟩ := hstep
    have hql : q.length = d := by simpa using hl
    refine ⟨v, a, ⟨⟨q, hq, hql⟩, ?_⟩, he⟩
    intro r hr
    have : validPath nbrs src (r ++ [(a, s')]) s' := by
      rw [validPath_append]
      exact ⟨v, hr, by rw [validPath_singleton]; exact ⟨he, rfl⟩⟩
    have := hmin _ this
    simp at this
    omega

/-- One edge extends a distance bound: a neighbour of a state at distance `d`
has a distance, and it is at most `d + 1`. -/
theorem distEq_edge {nbrs : Nat → List (Nat × Nat)} {src v d : Nat}
    (h : distEq nbrs src v d) {a s : Nat} (he : (a, s) ∈ nbrs v) :
    ∃ ds, distEq nbrs src s ds ∧ ds ≤ d + 1 := by
  obtain ⟨⟨p, hp, hl⟩, _⟩ := h
  have hpath : validPath nbrs src (p ++ [(a, s)]) s := by
    rw [validPath_append]
    exact ⟨v, hp, by rw [validPath_singleton]; exact ⟨he, rfl⟩⟩
  obtain ⟨ds, hds⟩ := reachable_exists_distEq ⟨_, hpath⟩
  refine ⟨ds, hds, ?_⟩
  have := hds.2 _ hpath
  simp at this
  omega

/-! ## The three removal policies pick an element of the frontier -/

theorem perm_get_eraseIdx (l : List SNode) (i : Nat) (h : i < l.length) :
    l.Perm (l.get ⟨i, h⟩ :: l.eraseIdx i) := by
  induction l generalizing i with
  | nil => simp at h
  | cons a l ih =>
    cases i with
    | zero => simp
    | succ i =>
      have hi : i < l.length := by simpa using h
      have h1 : (a :: l).Perm (a :: (l.get ⟨i, hi⟩ :: l.eraseIdx i)) := (ih i hi).cons a
      have h2 : (a :: (l.get ⟨i, hi⟩ :: l.eraseIdx i)).Perm
          (l.get ⟨i, hi⟩ :: a :: l.eraseIdx i) := List.Perm.swap _ _ _
      exact h1.trans h2

theorem stackPolicy_ok : PolicyOk stackPolicy := by
  constructor
  · intro fr
    cases fr using List.reverseRecOn with
    | nil => simp [stackPolicy, toPolicy, stackRemove, Except.toOption]
    | append_singleton l a =>
      simp [stackPolicy, toPolicy, stackRemove, Except.toOption, List.getLast?_concat]
  · intro fr n rest h
    cases fr using List.reverseRecOn with
    | nil => simp [stackPolicy, toPolicy, stackRemove, Except.toOption] at h
    | append_singleton l a =>
      simp only [stackPolicy, toPolicy, stackRemove, List.getLast?_concat,
        Except.toOption, List.dropLast_concat, Option.some.injEq, Prod.mk.injEq] at h
      obtain ⟨rfl, rfl⟩ := h
      exact List.perm_append_singleton a l

theorem queuePolicy_eq (n : SNode) (rest : List SNode) :
    queuePolicy (n :: rest) = some (n, rest) := rfl

theorem queuePolicy_ok : PolicyOk queuePolicy := by
  constructor
  · intro fr
    cases fr with
    | nil => simp [queuePolicy, toPolicy, queueRemove, Except.toOption]
    | cons a l => simp [queuePolicy, toPolicy, queueRemove, Except.toOption]
  · intro fr n rest h
    cases fr with
    | nil => simp [queuePolicy, toPolicy, queueRemove, Except.toOption] at h
    | cons a l =>
      simp only [queuePolicy, toPolicy, queueRemove, Except.toOption,
        Option.some.injEq, Prod.mk.injEq] at h
      obtain ⟨rfl, rfl⟩ := h
      exact List.Perm.refl _

theorem minFIdx_lt (fr : List SNode) (h : fr ≠ []) : minFIdx fr < fr.length := by
  induction fr with
  | nil => exact absurd rfl h
  | cons a l ih =>
    cases l with
    | nil => simp [minFIdx]
    | cons b m =>
      have hbm : b :: m ≠ [] := by simp
      have := ih hbm
      unfold minFIdx
      dsimp only
      split
      · simpa using this
      · simp

/-- The `f`-value at `minFIdx` is minimal. -/
theorem minFIdx_min (fr : List SNode) (d : SNode) (j : Nat) (hj : j < fr.length) :
    (fr.getD (minFIdx fr) d).f ≤ (fr.getD j d).f := by
  induction fr generalizing j with
  | nil => simp at hj
  | cons a l ih =>
    cases l with
    | nil =>
      have hj0 : j = 0 := Nat.lt_one_iff.mp (by simpa using hj)
      subst hj0
      simp [minFIdx]
    | cons b m =>
      have hlt := minFIdx_lt (b :: m) (by simp)
      unfold minFIdx
      dsimp only
      have hgetD : ∀ d' : SNode, (b :: m).getD (minFIdx (b :: m)) d' =
          (b :: m).getD (minFIdx (b :: m)) b := by
        intro d'
        rw [List.getD_eq_getElem _ _ hlt, List.getD_eq_getElem _ _ hlt]
      split
      · rename_i hsplit
        cases j with
        | zero =>
          simp only [List.getD_cons_succ, List.getD_cons_zero]
          rw [hgetD d]
          exact le_of_lt hsplit
        | succ j =>
          simp only [List.getD_cons_succ]
          rw [hgetD d]
          exact (hgetD d) ▸ ih j (by simpa using hj)
      · rename_i hsplit
        push_neg at hsplit
        cases j with
        | zero => simp
        | succ j =>
          simp only [List.getD_cons_succ, List.getD_cons_zero]
          calc a.f ≤ ((b :: m).getD (minFIdx (b :: m)) b).f := by rw [← hgetD b] at hsplit; exact hsplit
            _ ≤ ((b :: m).getD j d).f := (hgetD d) ▸ ih j (by simpa using hj)

/-- Every index before `minFIdx` has a strictly larger `f`-value: the minimum
picked is the first-encountered one. -/
theorem minFIdx_first (fr : List SNode) (d : SNode) (j : Nat) (hj : j < minFIdx fr) :
    (fr.getD (minFIdx fr) d).f < (fr.getD j d).f := by
  induction fr generalizing j with
  | nil => simp [minFIdx] at hj
  | cons a l ih =>
    cases l with
    | nil => simp [minFIdx] at hj
    | cons b m =>
      have hlt := minFIdx_lt (b :: m) (by simp)
      have hgetD : ∀ d' d'' : SNode, (b :: m).getD (minFIdx (b :: m)) d' =
          (b :: m).getD (minFIdx (b :: m)) d'' := by
        intro d' d''
        rw [List.getD_eq_getElem _ _ hlt, List.getD_eq_getElem _ _ hlt]
      revert hj
      unfold minFIdx
      dsimp only
      split
      · rename_i hsplit
        intro hj
        cases j with
        | zero =>
          simp only [List.getD_cons_succ, List.getD_cons_zero]
          rw [hgetD d b]
          exact hsplit
        | succ j =>
          simp only [List.getD_cons_succ]
          rw [hgetD d b]
          exact (hgetD d b) ▸ ih j (by omega)
      · intro hj; omega

theorem astarRemove_eq (a : SNode) (l : List SNode) :
    astarRemove (a :: l) =
      .ok ((a :: l).getD (minFIdx (a :: l)) a, (a :: l).eraseIdx (minFIdx (a :: l))) := rfl

theorem getD_eq_get (l : List SNode) (i : Nat) (h : i < l.length) (d : SNode) :
    l.getD i d = l.get ⟨i, h⟩ := by
  rw [List.getD_eq_getElem _ _ h]
  rfl

theorem astarPolicy_ok : PolicyOk astarPolicy := by
  constructor
  · intro fr
    cases fr with
    | nil => simp [astarPolicy, toPolicy, astarRemove, Except.toOption]
    | cons a l => simp [astarPolicy, toPolicy, astarRemove_eq, Except.toOption]
  · intro fr n rest h
    cases fr with
    | nil => simp [astarPolicy, toPolicy, astarRemove, Except.toOption] at h
    | cons a l =>
      have hlt := minFIdx_lt (a :: l) (by simp)
      simp only [astarPolicy, toPolicy, astarRemove_eq, Except.toOption,
        Option.some.injEq, Prod.mk.injEq] at h
      obtain ⟨rfl, rfl⟩ := h
      rw [getD_eq_get _ _ hlt]
      exact perm_get_eraseIdx (a :: l) _ hlt

/-! ## Generic characterisation of `expand` -/

/-- What one neighbour-expansion step does: it appends fresh child nodes, one
for each neighbour whose state is neither explored nor already present. -/
theorem expand_spec (mk : SNode → Nat → Nat → SNode)
    (hmkst : ∀ n a s, (mk n a s).state = s)
    (node : SNode) (explored : List Nat) :
    ∀ (ns : List (Nat × Nat)) (fr : List SNode),
      ∃ news, expand mk node explored fr ns = fr ++ news ∧
        (∀ m ∈ news, (∃ a s, (a, s) ∈ ns ∧ m = mk node a s) ∧
          m.state ∉ explored ∧ m.state ∉ fr.map SNode.state) ∧
        (news.map SNode.state).Nodup ∧
        (∀ a s, (a, s) ∈ ns → s ∈ explored ∨ s ∈ (fr ++ news).map SNode.state) := by
  intro ns
  induction ns with
  | nil =>
    intro fr
    exact ⟨[], by simp [expand], by simp, by simp, by simp⟩
  | cons x ns ih =>
    intro fr
    obtain ⟨a, s⟩ := x
    by_cases hc : contains_state s fr = false ∧ s ∉ explored
    · obtain ⟨news, heq, hmem, hnd, hcov⟩ := ih (fr ++ [mk node a s])
      have hexp : expand mk node explored fr ((a, s) :: ns) =
          fr ++ (mk node a s :: news) := by
        show expand mk node explored
            (if contains_state s fr = false ∧ s ∉ explored then fr ++ [mk node a s] else fr)
            ns = _
        rw [if_pos hc, heq, List.append_assoc]
        rfl
      refine ⟨mk node a s :: news, hexp, ?_, ?_, ?_⟩
      · intro m hm
        rcases List.mem_cons.mp hm with rfl | hm
        · refine ⟨⟨a, s, by simp, rfl⟩, ?_, ?_⟩
          · rw [hmkst]; exact hc.2
          · rw [hmkst]
            intro hcon
            rw [← contains_state_iff] at hcon
            rw [hc.1] at hcon
            exact Bool.false_ne_true hcon
        · obtain ⟨⟨a', s', ha', rfl⟩, hne, hnf⟩ := hmem m hm
          refine ⟨⟨a', s', by simp [ha'], rfl⟩, hne, ?_⟩
          intro hcon
          exact hnf (by simp [hcon])
      · rw [List.map_cons, List.nodup_cons]
        refine ⟨?_, hnd⟩
        intro hcon
        obtain ⟨m, hm, hms⟩ := List.mem_map.mp hcon
        obtain ⟨_, _, hnf⟩ := hmem m hm
        exact hnf (by simp [hms, hmkst])
      · intro a' s' hmem'
        rcases List.mem_cons.mp hmem' with heq' | hns
        · right
          have hs2 : s' = s := congrArg Prod.snd heq'
          subst hs2
          simp [hmkst]
        · rcases hcov a' s' hns with h | h
          · exact Or.inl h
          · right
            revert h
            simp only [List.map_append, List.mem_append, List.map_cons, List.mem_cons]
            tauto
    · obtain ⟨news, heq, hmem, hnd, hcov⟩ := ih fr
      have hexp : expand mk node explored fr ((a, s) :: ns) = fr ++ news := by
        show expand mk node explored
            (if contains_state s fr = false ∧ s ∉ explored then fr ++ [mk node a s] else fr)
            ns = _
        rw [if_neg hc, heq]
      refine ⟨news, hexp, ?_, hnd, ?_⟩
      · intro m hm
        obtain ⟨⟨a', s', ha', hmk⟩, hne, hnf⟩ := hmem m hm
        exact ⟨⟨a', s', List.mem_cons_of_mem _ ha', hmk⟩, hne, hnf⟩
      · intro a' s' hmem'
        rcases List.mem_cons.mp hmem' with heq' | hns
        · have hs2 : s' = s := congrArg Prod.snd heq'
          subst hs2
          rcases Decidable.em (s' ∈ explored) with h | h
          · exact Or.inl h
          · have hne : ¬ contains_state s' fr = false := fun hf => hc ⟨hf, h⟩
            have hcs : contains_state s' fr = true := by
              cases hcsv : contains_state s' fr with
              | false => exact absurd hcsv hne
              | true => rfl
            right
            rw [List.map_append, List.mem_append]
            exact Or.inl ((contains_state_iff s' fr).mp hcs)
        · exact hcov a' s' hns

/-! ## The generic loop invariant, for any admissible policy -/

theorem mkChildBFS_ok : MkOk mkChildBFS := fun n a s => ⟨0, 0, rfl⟩

theorem mkChildAStar_ok (h : Nat → Nat) : MkOk (mkChildAStar h) :=
  fun n a s => ⟨n.g + 1, n.g + 1 + h s, rfl⟩

theorem MkOk.state {mk : SNode → Nat → Nat → SNode} (hmk : MkOk mk)
    (n : SNode) (a s : Nat) : (mk n a s).state = s := by
  obtain ⟨g, f, hgf⟩ := hmk n a s
  rw [hgf]; rfl

theorem MkOk.depth {mk : SNode → Nat → Nat → SNode} (hmk : MkOk mk)
    (n : SNode) (a s : Nat) : (mk n a s).depth = n.depth + 1 := by
  obtain ⟨g, f, hgf⟩ := hmk n a s
  rw [hgf]; rfl

theorem MkOk.pathOf {mk : SNode → Nat → Nat → SNode} (hmk : MkOk mk)
    (n : SNode) (a s : Nat) : pathOf (mk n a s) = pathOf n ++ [(a, s)] := by
  obtain ⟨g, f, hgf⟩ := hmk n a s
  rw [hgf]; rfl

/-- The invariant holds at the start of every search. -/
theorem inv_init (nbrs : Nat → List (Nat × Nat)) (src tgt : Nat) (V : List Nat)
    (hsrc : src ∈ V) (g f : Nat) :
    Inv nbrs src tgt V [SNode.root src g f] [] := by
  refine ⟨?_, ?_, ?_, ?_, ?_, ?_, ?_, ?_, ?_⟩
  · intro n hn
    rw [List.mem_singleton] at hn
    subst hn
    exact chainValid_root nbrs src g f
  · simp
  · simp
  · simp
  · simp
  · intro n hn
    rw [List.mem_singleton] at hn
    subst hn
    exact hsrc
  · simp
  · right; simp [SNode.state]
  · simp

/-- One non-target expansion step preserves the invariant. -/
theorem step_inv {pol : List SNode → Option (SNode × List SNode)}
    {mk : SNode → Nat → Nat → SNode} (hpol : PolicyOk pol) (hmk : MkOk mk)
    {nbrs : Nat → List (Nat × Nat)} {src tgt : Nat} {V : List Nat}
    (hV : Closed V nbrs) {frontier : List SNode} {explored : List Nat}
    (inv : Inv nbrs src tgt V frontier explored) {node : SNode} {rest : List SNode}
    (hrem : pol frontier = some (node, rest)) (hne : node.state ≠ tgt) :
    Inv nbrs src tgt V
      (expand mk node (node.state :: explored) rest (nbrs node.state))
      (node.state :: explored) := by
  have hperm : frontier.Perm (node :: rest) := hpol.2 frontier node rest hrem
  have hpermStates : (frontier.map SNode.state).Perm
      (node.state :: rest.map SNode.state) := hperm.map SNode.state
  have hnodeMem : node ∈ frontier := hperm.mem_iff.mpr (List.mem_cons_self _ _)
  have hrestMem : ∀ n ∈ rest, n ∈ frontier := fun n hn =>
    hperm.mem_iff.mpr (List.mem_cons_of_mem _ hn)
  have hnodup' : (node.state :: rest.map SNode.state).Nodup :=
    hpermStates.nodup_iff.mp inv.nodupStates
  have hnodeNotRest : node.state ∉ rest.map SNode.state := (List.nodup_cons.mp hnodup').1
  have hrestNodup : (rest.map SNode.state).Nodup := (List.nodup_cons.mp hnodup').2
  obtain ⟨news, heq, hmem, hnodupNews, hcov⟩ :=
    expand_spec mk hmk.state node (node.state :: explored) (nbrs node.state) rest
  rw [heq]
  have hnodeValid : chainValid nbrs src node := inv.valid node hnodeMem
  have hnodeV : node.state ∈ V := inv.frSub node hnodeMem
  have hnewsValid : ∀ m ∈ news, chainValid nbrs src m := by
    intro m hm
    obtain ⟨⟨a, s, ha, hmks⟩, _, _⟩ := hmem m hm
    obtain ⟨g, f, hgf⟩ := hmk node a s
    rw [hmks, hgf]
    exact chainValid_child nbrs src node a s g f hnodeValid ha
  refine ⟨?_, ?_, ?_, ?_, ?_, ?_, ?_, ?_, ?_⟩
  · intro m hm
    rcases List.mem_append.mp hm with hm | hm
    · exact inv.valid m (hrestMem m hm)
    · exact hnewsValid m hm
  · rw [List.map_append, List.nodup_append]
    refine ⟨hrestNodup, hnodupNews, ?_⟩
    intro x hx hx'
    obtain ⟨m, hm, hms⟩ := List.mem_map.mp hx'
    obtain ⟨_, _, hnf⟩ := hmem m hm
    exact hnf (hms ▸ hx)
  · intro m hm
    rcases List.mem_append.mp hm with hm | hm
    · intro hcon
      rcases List.mem_cons.mp hcon with hceq | hcm
      · exact hnodeNotRest (hceq ▸ List.mem_map_of_mem SNode.state hm)
      · exact inv.frNotExplored m (hrestMem m hm) hcm
    · exact (hmem m hm).2.1
  · intro s hs
    rcases List.mem_cons.mp hs with rfl | hs
    · exact hnodeValid.reachable
    · exact inv.exploredReach s hs
  · intro s hs
    rcases List.mem_cons.mp hs with rfl | hs
    · exact hnodeV
    · exact inv.exploredSub s hs
  · intro m hm
    rcases List.mem_append.mp hm with hm | hm
    · exact inv.frSub m (hrestMem m hm)
    · obtain ⟨⟨a, s, ha, hmks⟩, _, _⟩ := hmem m hm
      rw [hmks, hmk.state]
      exact hV node.state hnodeV (a, s) ha
  · intro s hs a u hu
    rcases List.mem_cons.mp hs with rfl | hs
    · exact hcov a u hu
    · rcases inv.closure s hs a u hu with h | h
      · exact Or.inl (List.mem_cons_of_mem _ h)
      · have : u ∈ node.state :: rest.map SNode.state := hpermStates.mem_iff.mp h
        rcases List.mem_cons.mp this with rfl | h'
        · exact Or.inl (List.mem_cons_self _ _)
        · right
          rw [List.map_append, List.mem_append]
          exact Or.inl h'
  · rcases inv.srcMem with h | h
    · exact Or.inl (List.mem_cons_of_mem _ h)
    · have : src ∈ node.state :: rest.map SNode.state := hpermStates.mem_iff.mp h
      rcases List.mem_cons.mp this with rfl | h'
      · exact Or.inl (List.mem_cons_self _ _)
      · right
        rw [List.map_append, List.mem_append]
        exact Or.inl h'
  · intro hcon
    rcases List.mem_cons.mp hcon with rfl | h
    · exact hne rfl
    · exact inv.tgtNotExplored h

/-- With an empty frontier, the invariant forces the explored set to contain
every reachable state. -/
theorem reachable_sub_explored {nbrs : Nat → List (Nat × Nat)} {src tgt : Nat}
    {V : List Nat} {explored : List Nat}
    (inv : Inv nbrs src tgt V [] explored) :
    ∀ s, reachable nbrs src s → s ∈ explored := by
  have hsrc : src ∈ explored := by
    rcases inv.srcMem with h | h
    · exact h
    · simp at h
  have key : ∀ (p : List (Nat × Nat)) (u : Nat), validPath nbrs src p u → u ∈ explored := by
    intro p
    induction p using List.reverseRecOn with
    | nil =>
      intro u hp
      rw [validPath_nil] at hp
      exact hp ▸ hsrc
    | append_singleton q x ih =>
      obtain ⟨a, s⟩ := x
      intro u hp
      rw [validPath_append] at hp
      obtain ⟨v, hq, hstep⟩ := hp
      rw [validPath_singleton] at hstep
      obtain ⟨he, rfl⟩ := hstep
      rcases inv.closure v (ih v hq) a s he with h | h
      · exact h
      · simp at h
  rintro s ⟨p, hp⟩
  exact key p s hp

/-- Fuel bookkeeping: exploring a fresh state of `V` strictly shrinks the
unexplored part of `V`. -/
theorem fuel_decrease {V explored : List Nat} {s : Nat} (hsV : s ∈ V)
    (hse : s ∉ explored) :
    (V.toFinset \ (s :: explored).toFinset).card < (V.toFinset \ explored.toFinset).card := by
  have hmem : s ∈ V.toFinset \ explored.toFinset := by
    rw [Finset.mem_sdiff, List.mem_toFinset, List.mem_toFinset]
    exact ⟨hsV, hse⟩
  have hsub : V.toFinset \ (s :: explored).toFinset =
      (V.toFinset \ explored.toFinset).erase s := by
    ext x
    simp only [Finset.mem_sdiff, List.mem_toFinset, List.toFinset_cons, Finset.mem_insert,
      Finset.mem_erase, List.mem_cons]
    tauto
  rw [hsub]
  exact Finset.card_erase_lt_of_mem hmem

theorem graphSearch_none {pol : List SNode → Option (SNode × List SNode)}
    {mk : SNode → Nat → Nat → SNode} {nbrs : Nat → List (Nat × Nat)} {tgt : Nat}
    {fuel : Nat} {frontier : List SNode} {explored : List Nat}
    (h : pol frontier = none) :
    graphSearch pol mk nbrs tgt (fuel + 1) frontier explored = .noPath explored := by
  rw [graphSearch, h]

theorem graphSearch_found {pol : List SNode → Option (SNode × List SNode)}
    {mk : SNode → Nat → Nat → SNode} {nbrs : Nat → List (Nat × Nat)} {tgt : Nat}
    {fuel : Nat} {frontier : List SNode} {explored : List Nat}
    {node : SNode} {rest : List SNode}
    (h : pol frontier = some (node, rest)) (ht : node.state = tgt) :
    graphSearch pol mk nbrs tgt (fuel + 1) frontier explored = .found (pathOf node) := by
  rw [graphSearch, h]
  simp [ht]

theorem graphSearch_step {pol : List SNode → Option (SNode × List SNode)}
    {mk : SNode → Nat → Nat → SNode} {nbrs : Nat → List (Nat × Nat)} {tgt : Nat}
    {fuel : Nat} {frontier : List SNode} {explored : List Nat}
    {node : SNode} {rest : List SNode}
    (h : pol frontier = some (node, rest)) (ht : node.state ≠ tgt) :
    graphSearch pol mk nbrs tgt (fuel + 1) frontier explored =
      graphSearch pol mk nbrs tgt fuel
        (expand mk node (node.state :: explored) rest (nbrs node.state))
        (node.state :: explored) := by
  rw [graphSearch, h]
  simp [ht]

/-- Master theorem of the generic loop: with adequate fuel the search never
runs out of fuel, a `found` result is a valid source-to-target path, and a
`noPath` result reports exactly the reachable states as explored (and the
target is not among them). -/
theorem run_spec {pol : List SNode → Option (SNode × List SNode)}
    {mk : SNode → Nat → Nat → SNode} (hpol : PolicyOk pol) (hmk : MkOk mk)
    {nbrs : Nat → List (Nat × Nat)} {src tgt : Nat} {V : List Nat}
    (hV : Closed V nbrs) :
    ∀ (fuel : Nat) (frontier : List SNode) (explored : List Nat),
      Inv nbrs src tgt V frontier explored →
      (V.toFinset \ explored.toFinset).card < fuel →
      (graphSearch pol mk nbrs tgt fuel frontier explored ≠ .outOfFuel) ∧
      (∀ p, graphSearch pol mk nbrs tgt fuel frontier explored = .found p →
        validPath nbrs src p tgt) ∧
      (∀ E, graphSearch pol mk nbrs tgt fuel frontier explored = .noPath E →
        (∀ s, s ∈ E ↔ reachable nbrs src s) ∧ tgt ∉ E) := by
  intro fuel
  induction fuel with
  | zero =>
    intro frontier explored _ hfuel
    omega
  | succ fuel ih =>
    intro frontier explored inv hfuel
    cases hrem : pol frontier with
    | none =>
      have hempty : frontier = [] := (hpol.1 frontier).mp hrem
      rw [graphSearch_none hrem]
      subst hempty
      refine ⟨by simp, by simp, ?_⟩
      intro E hE
      have hEexp : explored = E := by simpa using hE
      subst hEexp
      refine ⟨fun s => ⟨inv.exploredReach s, reachable_sub_explored inv s⟩,
        inv.tgtNotExplored⟩
    | some nr =>
      obtain ⟨node, rest⟩ := nr
      by_cases htgt : node.state = tgt
      · rw [graphSearch_found hrem htgt]
        refine ⟨by simp, ?_, by simp⟩
        intro p hp
        have hpeq : pathOf node = p := by simpa using hp
        subst hpeq
        have hvalid : chainValid nbrs src node :=
          inv.valid node ((hpol.2 frontier node rest hrem).mem_iff.mpr
            (List.mem_cons_self _ _))
        exact htgt ▸ hvalid
      · rw [graphSearch_step hrem htgt]
        have inv' := step_inv hpol hmk hV inv hrem htgt
        have hnodeV : node.state ∈ V :=
          inv.frSub node ((hpol.2 frontier node rest hrem).mem_iff.mpr
            (List.mem_cons_self _ _))
        have hnodeNE : node.state ∉ explored :=
          inv.frNotExplored node ((hpol.2 frontier node rest hrem).mem_iff.mpr
            (List.mem_cons_self _ _))
        have hfuel' : (V.toFinset \ (node.state :: explored).toFinset).card < fuel := by
          have := fuel_decrease hnodeV hnodeNE
          omega
        exact ih _ _ inv' hfuel'

/-! ## The FIFO run returns shortest paths -/

theorem sorted_head_le {n₀ : SNode} {rest : List SNode}
    (hs : List.Pairwise (· ≤ ·) ((n₀ :: rest).map SNode.depth)) :
    ∀ m ∈ n₀ :: rest, n₀.depth ≤ m.depth := by
  rw [List.map_cons, List.pairwise_cons] at hs
  intro m hm
  rcases List.mem_cons.mp hm with rfl | hm
  · exact le_rfl
  · exact hs.1 m.depth (List.mem_map_of_mem SNode.depth hm)

/-- Completeness below the frontier head: any state strictly closer to the
source than the head of the FIFO frontier has already been explored. -/
theorem explored_complete {nbrs : Nat → List (Nat × Nat)} {src tgt : Nat}
    {V : List Nat} {n₀ : SNode} {rest : List SNode} {explored : List Nat}
    (inv : Inv nbrs src tgt V (n₀ :: rest) explored)
    (qinv : QInv nbrs src (n₀ :: rest) explored) :
    ∀ du u, distEq nbrs src u du → du < n₀.depth → u ∈ explored := by
  intro du
  induction du using Nat.strong_induction_on with
  | _ du ih =>
    intro u hdist hlt
    have hnotfr : u ∉ (n₀ :: rest).map SNode.state := by
      intro hcon
      obtain ⟨m, hm, hms⟩ := List.mem_map.mp hcon
      have hmd : distEq nbrs src u m.depth := hms ▸ qinv.depthDist m hm
      have : du = m.depth := distEq_unique hdist hmd
      have : n₀.depth ≤ m.depth := sorted_head_le qinv.sorted m hm
      omega
    cases du with
    | zero =>
      have husrc : u = src := distEq_zero_iff hdist
      subst husrc
      rcases inv.srcMem with h | h
      · exact h
      · exact absurd h hnotfr
    | succ du =>
      obtain ⟨v, a, hv, he⟩ := distEq_succ_pred hdist
      have hvexp : v ∈ explored := ih du (Nat.lt_succ_self du) v hv (by omega)
      rcases inv.closure v hvexp a u he with h | h
      · exact h
      · exact absurd h hnotfr

theorem pairwise_le_const_map (c : Nat) :
    ∀ (l : List SNode), (∀ m ∈ l, SNode.depth m = c) →
      List.Pairwise (· ≤ ·) (l.map SNode.depth) := by
  intro l
  induction l with
  | nil => intro _; simp
  | cons a l ih =>
    intro hc
    rw [List.map_cons, List.pairwise_cons]
    constructor
    · intro d hd
      obtain ⟨m, hm, hmd⟩ := List.mem_map.mp hd
      rw [hc a (List.mem_cons_self _ _), ← hmd, hc m (List.mem_cons_of_mem _ hm)]
    · exact ih fun m hm => hc m (List.mem_cons_of_mem _ hm)

/-- One FIFO step (popping the head, expanding it) preserves the FIFO
invariant. -/
theorem step_qinv {mk : SNode → Nat → Nat → SNode} (hmk : MkOk mk)
    {nbrs : Nat → List (Nat × Nat)} {src tgt : Nat} {V : List Nat}
    {n₀ : SNode} {rest : List SNode} {explored : List Nat}
    (inv : Inv nbrs src tgt V (n₀ :: rest) explored)
    (qinv : QInv nbrs src (n₀ :: rest) explored) :
    QInv nbrs src
      (expand mk n₀ (n₀.state :: explored) rest (nbrs n₀.state))
      (n₀.state :: explored) := by
  obtain ⟨news, heq, hmem, hnodupNews, hcov⟩ :=
    expand_spec mk hmk.state n₀ (n₀.state :: explored) (nbrs n₀.state) rest
  rw [heq]
  have hheadLe : ∀ m ∈ n₀ :: rest, n₀.depth ≤ m.depth := sorted_head_le qinv.sorted
  have hnewsDepth : ∀ m ∈ news, m.depth = n₀.depth + 1 := by
    intro m hm
    obtain ⟨⟨a, s, _, hmks⟩, _, _⟩ := hmem m hm
    rw [hmks, hmk.depth]
  have hrestSorted : List.Pairwise (· ≤ ·) (rest.map SNode.depth) := by
    have := qinv.sorted
    rw [List.map_cons, List.pairwise_cons] at this
    exact this.2
  have hrestLe : ∀ m ∈ rest, m.depth ≤ n₀.depth + 1 := by
    intro m hm
    exact qinv.spread m.depth
      (List.mem_map_of_mem SNode.depth (List.mem_cons_of_mem _ hm)) n₀.depth
      (List.mem_map_of_mem SNode.depth (List.mem_cons_self _ _))
  have hd₀ : distEq nbrs src n₀.state n₀.depth :=
    qinv.depthDist n₀ (List.mem_cons_self _ _)
  -- the heart of the optimality argument: each new child's state has true
  -- distance exactly one more than the head's depth
  have hnewsDist : ∀ m ∈ news, distEq nbrs src m.state (n₀.depth + 1) := by
    intro m hm
    obtain ⟨⟨a, s, ha, hmks⟩, hnex, hnfr⟩ := hmem m hm
    have hstate : m.state = s := by rw [hmks, hmk.state]
    obtain ⟨ds, hds, hdsle⟩ := distEq_edge hd₀ ha
    have hnotsmall : ¬ ds ≤ n₀.depth := by
      intro hle
      have hsnotexp' : s ∉ n₀.state :: explored := hstate ▸ hnex
      have hsnotexp : s ∉ explored := fun h => hsnotexp' (List.mem_cons_of_mem _ h)
      have hsnotrest : s ∉ rest.map SNode.state := hstate ▸ hnfr
      have hsnotn₀ : s ≠ n₀.state := fun h =>
        hsnotexp' (h ▸ List.mem_cons_self _ _)
      have hsnotfr : s ∉ (n₀ :: rest).map SNode.state := by
        rw [List.map_cons]
        intro hcon
        rcases List.mem_cons.mp hcon with h | h
        · exact hsnotn₀ h
        · exact hsnotrest h
      rcases Nat.lt_or_ge ds n₀.depth with hlt | hge
      · exact hsnotexp (explored_complete inv qinv ds s hds hlt)
      · have hdseq : ds = n₀.depth := by omega
        subst hdseq
        cases hdz : n₀.depth with
        | zero =>
          rw [hdz] at hds
          have : s = src := distEq_zero_iff hds
          subst this
          rcases inv.srcMem with h | h
          · exact hsnotexp h
          · exact hsnotfr h
        | succ du =>
          rw [hdz] at hds
          obtain ⟨v, a', hv, he'⟩ := distEq_succ_pred hds
          have hvexp : v ∈ explored :=
            explored_complete inv qinv du v hv (by omega)
          rcases inv.closure v hvexp a' s he' with h | h
          · exact hsnotexp h
          · exact hsnotfr h
    have hdseq : ds = n₀.depth + 1 := by omega
    rw [hstate]
    exact hdseq ▸ hds
  refine ⟨?_, ?_, ?_, ?_⟩
  · rw [List.map_append]
    rw [List.pairwise_append]
    refine ⟨hrestSorted, pairwise_le_const_map (n₀.depth + 1) news hnewsDepth, ?_⟩
    intro d hd d' hd'
    obtain ⟨m, hm, hmd⟩ := List.mem_map.mp hd
    obtain ⟨m', hm', hmd'⟩ := List.mem_map.mp hd'
    rw [← hmd, ← hmd', hnewsDepth m' hm']
    exact hrestLe m hm
  · intro d hd d' hd'
    rw [List.map_append, List.mem_append] at hd hd'
    have hdval : ∀ e, e ∈ rest.map SNode.depth ∨ e ∈ news.map SNode.depth →
        n₀.depth ≤ e ∧ e ≤ n₀.depth + 1 := by
      intro e he
      rcases he with he | he
      · obtain ⟨m, hm, hmd⟩ := List.mem_map.mp he
        exact ⟨hmd ▸ hheadLe m (List.mem_cons_of_mem _ hm), hmd ▸ hrestLe m hm⟩
      · obtain ⟨m, hm, hmd⟩ := List.mem_map.mp he
        rw [← hmd, hnewsDepth m hm]
        omega
    have h1 := hdval d hd
    have h2 := hdval d' hd'
    omega
  · intro m hm
    rcases List.mem_append.mp hm with hm | hm
    · exact qinv.depthDist m (List.mem_cons_of_mem _ hm)
    · exact (hnewsDepth m hm) ▸ hnewsDist m hm
  · intro s hs d hd m hm
    have hmd : n₀.depth ≤ m.depth := by
      rcases List.mem_append.mp hm with hm | hm
      · exact hheadLe m (List.mem_cons_of_mem _ hm)
      · rw [hnewsDepth m hm]; omega
    rcases List.mem_cons.mp hs with rfl | hs
    · have : d = n₀.depth := distEq_unique hd hd₀
      omega
    · have := qinv.exploredLe s hs d hd n₀ (List.mem_cons_self _ _)
      omega

/-- The FIFO invariant holds at the start. -/
theorem qinv_init (nbrs : Nat → List (Nat × Nat)) (src : Nat) (g f : Nat) :
    QInv nbrs src [SNode.root src g f] [] := by
  refine ⟨by simp, by simp, ?_, by simp⟩
  intro n hn
  rw [List.mem_singleton] at hn
  subst hn
  exact ⟨⟨[], rfl, rfl⟩, fun q _ => Nat.zero_le _⟩

/-- In a FIFO run, any `found` path has length exactly the graph distance. -/
theorem run_queue {mk : SNode → Nat → Nat → SNode} (hmk : MkOk mk)
    {nbrs : Nat → List (Nat × Nat)} {src tgt : Nat} {V : List Nat}
    (hV : Closed V nbrs) :
    ∀ (fuel : Nat) (frontier : List SNode) (explored : List Nat),
      Inv nbrs src tgt V frontier explored →
      QInv nbrs src frontier explored →
      ∀ p, graphSearch queuePolicy mk nbrs tgt fuel frontier explored = .found p →
        distEq nbrs src tgt p.length := by
  intro fuel
  induction fuel with
  | zero =>
    intro frontier explored _ _ p hp
    exact absurd hp (by rw [graphSearch]; simp)
  | succ fuel ih =>
    intro frontier explored inv qinv p hp
    cases frontier with
    | nil =>
      rw [graphSearch_none ((queuePolicy_ok.1 []).mpr rfl)] at hp
      exact absurd hp (by simp)
    | cons n₀ rest =>
      by_cases htgt : n₀.state = tgt
      · rw [graphSearch_found (queuePolicy_eq n₀ rest) htgt] at hp
        have hpeq : pathOf n₀ = p := by simpa using hp
        subst hpeq
        rw [pathOf_length]
        exact htgt ▸ qinv.depthDist n₀ (List.mem_cons_self _ _)
      · rw [graphSearch_step (queuePolicy_eq n₀ rest) htgt] at hp
        exact ih _ _ (step_inv queuePolicy_ok hmk hV inv (queuePolicy_eq n₀ rest) htgt)
          (step_qinv hmk inv qinv) p hp

/-! ## Priority policy with zero heuristic runs in lockstep with FIFO -/

theorem minFIdx_sorted_zero (a : SNode) (l : List SNode)
    (hs : List.Pairwise (· ≤ ·) ((a :: l).map SNode.f)) : minFIdx (a :: l) = 0 := by
  cases l with
  | nil => rfl
  | cons b m =>
    have hlt := minFIdx_lt (b :: m) (by simp)
    have hmem : (b :: m).getD (minFIdx (b :: m)) b ∈ b :: m := by
      rw [getD_eq_get _ _ hlt]
      exact List.get_mem _ _ hlt
    have hle : a.f ≤ ((b :: m).getD (minFIdx (b :: m)) b).f := by
      rw [List.map_cons, List.pairwise_cons] at hs
      exact hs.1 _ (List.mem_map_of_mem SNode.f hmem)
    show (if ((b :: m).getD (minFIdx (b :: m)) b).f < a.f then minFIdx (b :: m) + 1 else 0) = 0
    rw [if_neg (by omega)]

theorem astarPolicy_sorted (fr : List SNode)
    (hs : List.Pairwise (· ≤ ·) (fr.map SNode.f)) : astarPolicy fr = queuePolicy fr := by
  cases fr with
  | nil => rfl
  | cons a l =>
    have h0 : minFIdx (a :: l) = 0 := minFIdx_sorted_zero a l hs
    show (astarRemove (a :: l)).toOption = (queueRemove (a :: l)).toOption
    rw [astarRemove_eq, h0]
    rfl

theorem step_sorted {mk : SNode → Nat → Nat → SNode} (hmk : MkOk mk)
    (n₀ : SNode) (rest : List SNode) (explored' : List Nat) (ns : List (Nat × Nat))
    (hsorted : List.Pairwise (· ≤ ·) ((n₀ :: rest).map SNode.depth))
    (hspread : ∀ d ∈ (n₀ :: rest).map SNode.depth,
      ∀ d' ∈ (n₀ :: rest).map SNode.depth, d ≤ d' + 1) :
    List.Pairwise (· ≤ ·) ((expand mk n₀ explored' rest ns).map SNode.depth) ∧
      (∀ d ∈ (expand mk n₀ explored' rest ns).map SNode.depth,
        ∀ d' ∈ (expand mk n₀ explored' rest ns).map SNode.depth, d ≤ d' + 1) := by
  obtain ⟨news, heq, hmem, _, _⟩ := expand_spec mk hmk.state n₀ explored' ns rest
  rw [heq]
  have hheadLe : ∀ m ∈ n₀ :: rest, n₀.depth ≤ m.depth := sorted_head_le hsorted
  have hnewsDepth : ∀ m ∈ news, m.depth = n₀.depth + 1 := by
    intro m hm
    obtain ⟨⟨a, s, _, hmks⟩, _, _⟩ := hmem m hm
    rw [hmks, hmk.depth]
  have hrestSorted : List.Pairwise (· ≤ ·) (rest.map SNode.depth) := by
    have := hsorted
    rw [List.map_cons, List.pairwise_cons] at this
    exact this.2
  have hrestLe : ∀ m ∈ rest, m.depth ≤ n₀.depth + 1 := by
    intro m hm
    exact hspread m.depth
      (List.mem_map_of_mem SNode.depth (List.mem_cons_of_mem _ hm)) n₀.depth
      (List.mem_map_of_mem SNode.depth (List.mem_cons_self _ _))
  constructor
  · rw [List.map_append, List.pairwise_append]
    refine ⟨hrestSorted, pairwise_le_const_map (n₀.depth + 1) news hnewsDepth, ?_⟩
    intro d hd d' hd'
    obtain ⟨m, hm, hmd⟩ := List.mem_map.mp hd
    obtain ⟨m', hm', hmd'⟩ := List.mem_map.mp hd'
    rw [← hmd, ← hmd', hnewsDepth m' hm']
    exact hrestLe m hm
  · intro d hd d' hd'
    rw [List.map_append, List.mem_append] at hd hd'
    have hdval : ∀ e, e ∈ rest.map SNode.depth ∨ e ∈ news.map SNode.depth →
        n₀.depth ≤ e ∧ e ≤ n₀.depth + 1 := by
      intro e he
      rcases he with he | he
      · obtain ⟨m, hm, hmd⟩ := List.mem_map.mp he
        exact ⟨hmd ▸ hheadLe m (List.mem_cons_of_mem _ hm), hmd ▸ hrestLe m hm⟩
      · obtain ⟨m, hm, hmd⟩ := List.mem_map.mp he
        rw [← hmd, hnewsDepth m hm]
        omega
    have h1 := hdval d hd
    have h2 := hdval d' hd'
    omega

theorem step_gf (n₀ : SNode) (rest : List SNode) (explored' : List Nat)
    (ns : List (Nat × Nat))
    (hgf : ∀ n ∈ n₀ :: rest, n.g = n.depth ∧ n.f = n.depth) :
    ∀ m ∈ expand (mkChildAStar (fun _ => 0)) n₀ explored' rest ns,
      m.g = m.depth ∧ m.f = m.depth := by
  obtain ⟨news, heq, hmem, _, _⟩ :=
    expand_spec (mkChildAStar (fun _ => 0)) (mkChildAStar_ok _).state n₀ explored' ns rest
  rw [heq]
  intro m hm
  rcases List.mem_append.mp hm with hm | hm
  · exact hgf m (List.mem_cons_of_mem _ hm)
  · obtain ⟨⟨a, s, _, hmks⟩, _, _⟩ := hmem m hm
    subst hmks
    have hg := (hgf n₀ (List.mem_cons_self _ _)).1
    refine ⟨?_, ?_⟩
    · show n₀.g + 1 = (mkChildAStar (fun _ => 0) n₀ a s).depth
      rw [(mkChildAStar_ok _).depth, hg]
    · show n₀.g + 1 + 0 = (mkChildAStar (fun _ => 0) n₀ a s).depth
      rw [(mkChildAStar_ok _).depth, hg]

/-- A priority run whose heuristic is constantly zero removes exactly the
head of the frontier, so it coincides, state for state, with the FIFO run. -/
theorem astar_zero_eq_queue (nbrs : Nat → List (Nat × Nat)) (tgt : Nat) :
    ∀ (fuel : Nat) (frontier : List SNode) (explored : List Nat),
      (∀ n ∈ frontier, n.g = n.depth ∧ n.f = n.depth) →
      List.Pairwise (· ≤ ·) (frontier.map SNode.depth) →
      (∀ d ∈ frontier.map SNode.depth, ∀ d' ∈ frontier.map SNode.depth, d ≤ d' + 1) →
      graphSearch astarPolicy (mkChildAStar (fun _ => 0)) nbrs tgt fuel frontier explored =
        graphSearch queuePolicy (mkChildAStar (fun _ => 0)) nbrs tgt fuel frontier explored := by
  intro fuel
  induction fuel with
  | zero => intro frontier explored _ _ _; rfl
  | succ fuel ih =>
    intro frontier explored hgf hsorted hspread
    have hfsorted : List.Pairwise (· ≤ ·) (frontier.map SNode.f) := by
      have hmapeq : frontier.map SNode.f = frontier.map SNode.depth :=
        List.map_congr_left fun n hn => (hgf n hn).2
      rw [hmapeq]
      exact hsorted
    cases frontier with
    | nil =>
      rw [graphSearch_none ((astarPolicy_ok.1 []).mpr rfl),
        graphSearch_none ((queuePolicy_ok.1 []).mpr rfl)]
    | cons n₀ rest =>
      have ha : astarPolicy (n₀ :: rest) = some (n₀, rest) := by
        rw [astarPolicy_sorted _ hfsorted]
        exact queuePolicy_eq n₀ rest
      by_cases htgt : n₀.state = tgt
      · rw [graphSearch_found ha htgt, graphSearch_found (queuePolicy_eq n₀ rest) htgt]
      · rw [graphSearch_step ha htgt, graphSearch_step (queuePolicy_eq n₀ rest) htgt]
        obtain ⟨hsorted', hspread'⟩ :=
          step_sorted (mkChildAStar_ok _) n₀ rest (n₀.state :: explored)
            (nbrs n₀.state) hsorted hspread
        exact ih _ _ (step_gf n₀ rest (n₀.state :: explored) (nbrs n₀.state) hgf)
          hsorted' hspread'

/-! ## The data loader and `neighbors_for_person` -/

theorem addToKey_none_iff (k x : Nat) (t : List (Nat × List Nat)) :
    addToKey k x t = none ↔ lookupTbl k t = none := by
  induction t with
  | nil => simp [addToKey, lookupTbl]
  | cons kv t ih =>
    obtain ⟨k', v⟩ := kv
    by_cases hk : k' = k
    · simp [addToKey, lookupTbl, hk]
    · simp only [addToKey, lookupTbl, if_neg hk]
      rw [← ih]
      cases addToKey k x t <;> simp

theorem addToKey_some_spec (k x : Nat) (t t' : List (Nat × List Nat))
    (h : addToKey k x t = some t') :
    (∀ k', k' ≠ k → lookupTbl k' t' = lookupTbl k' t) ∧
      ∃ v, lookupTbl k t = some v ∧
        lookupTbl k t' = some (if x ∈ v then v else v ++ [x]) := by
  induction t generalizing t' with
  | nil => simp [addToKey] at h
  | cons kv t ih =>
    obtain ⟨k', v⟩ := kv
    by_cases hk : k' = k
    · subst hk
      rw [addToKey, if_pos rfl] at h
      have ht' : t' = (k', if x ∈ v then v else v ++ [x]) :: t := by
        simpa using h.symm
      subst ht'
      refine ⟨?_, v, ?_, ?_⟩
      · intro k'' hk''
        rw [lookupTbl, lookupTbl, if_neg (Ne.symm hk''), if_neg (Ne.symm hk'')]
      · rw [lookupTbl, if_pos rfl]
      · rw [lookupTbl, if_pos rfl]
    · rw [addToKey, if_neg hk] at h
      cases hrec : addToKey k x t with
      | none => rw [hrec] at h; simp at h
      | some t₀ =>
        rw [hrec] at h
        have ht' : t' = (k', v) :: t₀ := by simpa using h.symm
        subst ht'
        obtain ⟨hother, w, hw, hw'⟩ := ih t₀ hrec
        refine ⟨?_, w, ?_, ?_⟩
        · intro k'' hk''
          by_cases hk2 : k' = k''
          · rw [lookupTbl, lookupTbl, if_pos hk2, if_pos hk2]
          · rw [lookupTbl, lookupTbl, if_neg hk2, if_neg hk2]
            exact hother k'' hk''
        · rw [lookupTbl, if_neg hk]
          exact hw
        · rw [lookupTbl, if_neg hk]
          exact hw'

theorem setKey_fold_empty (rows : List Nat) :
    ∀ (t : List (Nat × List Nat)),
      (∀ k l, lookupTbl k t = some l → l = []) →
      ∀ k l, lookupTbl k (rows.foldl (fun t pid => setKey pid t) t) = some l → l = [] := by
  induction rows with
  | nil => intro t ht; exact ht
  | cons r rows ih =>
    intro t ht
    refine ih (setKey r t) ?_
    intro k l hl
    rw [setKey, lookupTbl] at hl
    by_cases hr : r = k
    · rw [if_pos hr] at hl
      simpa using hl.symm
    · rw [if_neg hr] at hl
      exact ht k l hl

theorem starInv_of_empty (people movies : List (Nat × List Nat))
    (hp : ∀ k l, lookupTbl k people = some l → l = []) :
    StarInv people movies := by
  intro p l m hl hm s _
  rw [hp p l hl] at hm
  simp at hm

theorem loadStar_preserves (st : List (Nat × List Nat) × List (Nat × List Nat))
    (row : Nat × Nat) (hinv : StarInv st.1 st.2) :
    StarInv (loadStar st row).1 (loadStar st row).2 := by
  obtain ⟨P, M⟩ := st
  obtain ⟨pid, mid⟩ := row
  rw [loadStar]
  dsimp only
  cases hp : addToKey pid mid P with
  | none => exact hinv
  | some P' =>
    obtain ⟨hPother, v, hvP, hvP'⟩ := addToKey_some_spec pid mid P P' hp
    cases hm : addToKey mid pid M with
    | none =>
      rw [addToKey_none_iff] at hm
      dsimp only
      intro p l m hl hml s hs
      by_cases hppid : p = pid
      · subst hppid
        rw [hvP'] at hl
        have hleq : (if mid ∈ v then v else v ++ [mid]) = l := by simpa using hl
        by_cases hmmid : m = mid
        · subst hmmid
          rw [hm] at hs
          exact absurd hs (by simp)
        · have hmv : m ∈ v := by
            rw [← hleq] at hml
            by_cases hin : mid ∈ v
            · rwa [if_pos hin] at hml
            · rw [if_neg hin, List.mem_append] at hml
              rcases hml with h | h
              · exact h
              · exact absurd (by simpa using h) hmmid
          exact hinv p v m hvP hmv s hs
      · rw [hPother p hppid] at hl
        exact hinv p l m hl hml s hs
    | some M' =>
      obtain ⟨hMother, w, hwM, hwM'⟩ := addToKey_some_spec mid pid M M' hm
      dsimp only
      intro p l m hl hml s hs
      by_cases hppid : p = pid
      · subst hppid
        rw [hvP'] at hl
        have hleq : (if mid ∈ v then v else v ++ [mid]) = l := by simpa using hl
        by_cases hmmid : m = mid
        · subst hmmid
          rw [hwM'] at hs
          have hseq : (if p ∈ w then w else w ++ [p]) = s := by simpa using hs
          rw [← hseq]
          by_cases hin : p ∈ w
          · rwa [if_pos hin]
          · rw [if_neg hin, List.mem_append]
            right
            simp
        · have hmv : m ∈ v := by
            rw [← hleq] at hml
            by_cases hin : mid ∈ v
            · rwa [if_pos hin] at hml
            · rw [if_neg hin, List.mem_append] at hml
              rcases hml with h | h
              · exact h
              · exact absurd (by simpa using h) hmmid
          rw [hMother m hmmid] at hs
          exact hinv p v m hvP hmv s hs
      · rw [hPother p hppid] at hl
        by_cases hmmid : m = mid
        · subst hmmid
          rw [hwM'] at hs
          have hseq : (if pid ∈ w then w else w ++ [pid]) = s := by simpa using hs
          have hpw : p ∈ w := hinv p l m hl hml w hwM
          rw [← hseq]
          by_cases hin : pid ∈ w
          · rwa [if_pos hin]
          · rw [if_neg hin, List.mem_append]
            exact Or.inl hpw
        · rw [hMother m hmmid] at hs
          exact hinv p l m hl hml s hs

/-- The loader establishes the cross-table consistency invariant. -/
theorem load_data_starInv (peopleRows moviesRows : List Nat)
    (starRows : List (Nat × Nat)) :
    StarInv (load_data peopleRows moviesRows starRows).1
      (load_data peopleRows moviesRows starRows).2 := by
  have hfold : ∀ (rows : List (Nat × Nat))
      (st : List (Nat × List Nat) × List (Nat × List Nat)), StarInv st.1 st.2 →
      StarInv (rows.foldl loadStar st).1 (rows.foldl loadStar st).2 := by
    intro rows
    induction rows with
    | nil => intro st h; exact h
    | cons row rows ih =>
      intro st h
      rw [List.foldl_cons]
      exact ih _ (loadStar_preserves st row h)
  have hinit : StarInv (peopleRows.foldl (fun t pid => setKey pid t) [])
      (moviesRows.foldl (fun t mid => setKey mid t) []) :=
    starInv_of_empty _ _
      (setKey_fold_empty peopleRows [] (by intro k l hl; simp [lookupTbl] at hl))
  simp only [load_data]
  exact hfold starRows _ hinit

/-- When every movie of the person is a key of the movies table, the
neighbour computation succeeds and collects every star pair. -/
theorem neighbors_for_person_mem (people movies : List (Nat × List Nat))
    (pid : Nat) (movieIds : List Nat)
    (hp : lookupTbl pid people = some movieIds)
    (hall : ∀ mid ∈ movieIds, ∃ s, lookupTbl mid movies = some s) :
    ∃ res, neighbors_for_person people movies pid = some res ∧
      ∀ mid ∈ movieIds, ∀ s, lookupTbl mid movies = some s →
        ∀ q ∈ s, (mid, q) ∈ res := by
  rw [neighbors_for_person, hp]
  have key : ∀ (ms : List Nat), (∀ mid ∈ ms, ∃ s, lookupTbl mid movies = some s) →
      ∀ (l₀ : List (Nat × Nat)),
      ∃ res,
        ms.foldl
          (fun acc mid =>
            match acc, lookupTbl mid movies with
            | some l, some stars => some (l ++ stars.map (fun q => (mid, q)))
            | _, _ => none)
          (some l₀) = some res ∧
        (∀ x ∈ l₀, x ∈ res) ∧
        ∀ mid ∈ ms, ∀ s, lookupTbl mid movies = some s → ∀ q ∈ s, (mid, q) ∈ res := by
    intro ms
    induction ms with
    | nil =>
      intro _ l₀
      exact ⟨l₀, rfl, fun x hx => hx, by simp⟩
    | cons mid ms ih =>
      intro hall' l₀
      obtain ⟨s, hs⟩ := hall' mid (List.mem_cons_self _ _)
      rw [List.foldl_cons, hs]
      obtain ⟨res, hres, hsub, hmem⟩ :=
        ih (fun m hm => hall' m (List.mem_cons_of_mem _ hm))
          (l₀ ++ s.map (fun q => (mid, q)))
      refine ⟨res, hres, ?_, ?_⟩
      · intro x hx
        exact hsub x (List.mem_append.mpr (Or.inl hx))
      · intro mid' hmid' s' hs' q hq
        rcases List.mem_cons.mp hmid' with rfl | hmid'
        · have hss : s = s' := by
            have := hs.symm.trans hs'
            simpa using this
          subst hss
          exact hsub (mid', q)
            (List.mem_append.mpr (Or.inr (List.mem_map_of_mem _ hq)))
        · exact hmem mid' hmid' s' hs' q hq
  obtain ⟨res, hres, _, hmem⟩ := key movieIds hall []
  exact ⟨res, hres, hmem⟩

/-! ## The claims -/

theorem fuel_enough (V : List Nat) :
    (V.toFinset \ ([] : List Nat).toFinset).card < V.length + 1 := by
  simp only [List.toFinset_nil, Finset.sdiff_empty]
  exact Nat.lt_succ_of_le V.toFinset_card_le

theorem not_reachable_noEdges : ¬ reachable exNoEdges 0 1 := by
  rintro ⟨p, hp⟩
  cases p with
  | nil => exact absurd ((validPath_nil _ _ _).mp hp) (by simp)
  | cons x q =>
    obtain ⟨a, s⟩ := x
    exact absurd ((validPath_cons _ _ _ _ _ _).mp hp).1 (by simp [exNoEdges])

/-- C1: on a finite graph whose vertex list is closed under expansion, with
the target reachable from the source (as in any connected graph), the generic
search loop run with the FIFO (queue) frontier policy returns a path that is
valid from source to target and whose edge count equals the true graph
distance. -/
theorem fifo_policy_shortest (heur : Nat → Nat) (V : List Nat)
    (nbrs : Nat → List (Nat × Nat)) (src tgt : Nat)
    (hV : Closed V nbrs) (hsrc : src ∈ V) (hconn : reachable nbrs src tgt) :
    ∃ p, find_path queuePolicy heur V nbrs src tgt = .found p ∧
      validPath nbrs src p tgt ∧ distEq nbrs src tgt p.length := by
  have inv0 := inv_init nbrs src tgt V hsrc 0 (heur src)
  have qinv0 := qinv_init nbrs src 0 (heur src)
  obtain ⟨hnof, hfound, hnop⟩ :=
    run_spec queuePolicy_ok (mkChildAStar_ok heur) hV (V.length + 1)
      [SNode.root src 0 (heur src)] [] inv0 (fuel_enough V)
  cases hres : find_path queuePolicy heur V nbrs src tgt with
  | found p =>
    refine ⟨p, rfl, hfound p hres, ?_⟩
    exact run_queue (mkChildAStar_ok heur) hV (V.length + 1) _ _ inv0 qinv0 p hres
  | noPath E =>
    obtain ⟨hiff, htne⟩ := hnop E hres
    exact absurd ((hiff tgt).mpr hconn) htne
  | outOfFuel => exact absurd hres hnof

theorem fifo_policy_shortest_witness :
    ∃ p, find_path queuePolicy (fun _ => 0) exV exNbrs 0 1 = .found p ∧
      validPath exNbrs 0 p 1 ∧ distEq exNbrs 0 1 p.length :=
  fifo_policy_shortest (fun _ => 0) exV exNbrs 0 1 (by decide) (by decide)
    ⟨[(5, 1)], by decide⟩

/-- C2: when the target is not reachable from the source, both searches
(`shortest_path` and `shortest_path_A_STAR`) return the no-path value, and
the explored set they end with holds exactly the states reachable from the
source. -/
theorem search_no_path (heur : Nat → Nat) (V : List Nat)
    (nbrs : Nat → List (Nat × Nat)) (src tgt : Nat)
    (hV : Closed V nbrs) (hsrc : src ∈ V) (hnr : ¬ reachable nbrs src tgt) :
    (∃ E, shortest_path V nbrs src tgt = .noPath E ∧
      ∀ s, s ∈ E ↔ reachable nbrs src s) ∧
    (∃ E, shortest_path_A_STAR heur V nbrs src tgt = .noPath E ∧
      ∀ s, s ∈ E ↔ reachable nbrs src s) := by
  constructor
  · obtain ⟨hnof, hfound, hnop⟩ :=
      run_spec stackPolicy_ok mkChildBFS_ok hV (V.length + 1)
        [SNode.root src 0 0] [] (inv_init nbrs src tgt V hsrc 0 0) (fuel_enough V)
    cases hres : shortest_path V nbrs src tgt with
    | found p => exact absurd ⟨p, hfound p hres⟩ hnr
    | noPath E => exact ⟨E, rfl, (hnop E hres).1⟩
    | outOfFuel => exact absurd hres hnof
  · obtain ⟨hnof, hfound, hnop⟩ :=
      run_spec astarPolicy_ok (mkChildAStar_ok heur) hV (V.length + 1)
        [SNode.root src 0 (heur src)] []
        (inv_init nbrs src tgt V hsrc 0 (heur src)) (fuel_enough V)
    cases hres : shortest_path_A_STAR heur V nbrs src tgt with
    | found p => exact absurd ⟨p, hfound p hres⟩ hnr
    | noPath E => exact ⟨E, rfl, (hnop E hres).1⟩
    | outOfFuel => exact absurd hres hnof

theorem search_no_path_witness :
    (∃ E, shortest_path exV exNoEdges 0 1 = .noPath E ∧
      ∀ s, s ∈ E ↔ reachable exNoEdges 0 s) ∧
    (∃ E, shortest_path_A_STAR (fun _ => 0) exV exNoEdges 0 1 = .noPath E ∧
      ∀ s, s ∈ E ↔ reachable exNoEdges 0 s) :=
  search_no_path (fun _ => 0) exV exNoEdges 0 1 (by decide) (by decide)
    not_reachable_noEdges

/-- C3: the priority-policy search with the constantly-zero heuristic
(`shortest_path_A_STAR` with `h = 0`, as `main` calls it) computes the very
same result as the FIFO-policy instance of the generic loop on the same
graph, source and target; in particular any two found paths have equal
length. -/
theorem priority_zero_matches_fifo (V : List Nat) (nbrs : Nat → List (Nat × Nat))
    (src tgt : Nat) :
    shortest_path_A_STAR (fun _ => 0) V nbrs src tgt =
      find_path queuePolicy (fun _ => 0) V nbrs src tgt ∧
    ∀ p q, shortest_path_A_STAR (fun _ => 0) V nbrs src tgt = .found p →
      find_path queuePolicy (fun _ => 0) V nbrs src tgt = .found q →
        p.length = q.length := by
  have heq : shortest_path_A_STAR (fun _ => 0) V nbrs src tgt =
      find_path queuePolicy (fun _ => 0) V nbrs src tgt := by
    show graphSearch astarPolicy (mkChildAStar fun _ => 0) nbrs tgt (V.length + 1)
        [SNode.root src 0 0] [] =
      graphSearch queuePolicy (mkChildAStar fun _ => 0) nbrs tgt (V.length + 1)
        [SNode.root src 0 0] []
    refine astar_zero_eq_queue nbrs tgt (V.length + 1) [SNode.root src 0 0] [] ?_ ?_ ?_
    · intro n hn
      rw [List.mem_singleton] at hn
      subst hn
      exact ⟨rfl, rfl⟩
    · simp
    · intro d hd d' hd'
      simp only [List.map_cons, List.map_nil, List.mem_singleton] at hd hd'
      omega
  refine ⟨heq, ?_⟩
  intro p q hp hq
  rw [heq, hq] at hp
  injection hp with h
  rw [h]

/-- C4: the LIFO-policy search (`shortest_path`, which is wired to
`StackFrontier`) never exhausts its fuel, returns some valid source-to-target
path whenever the target is reachable, and returns the no-path value exactly
when it is not. -/
theorem lifo_search_valid (V : List Nat) (nbrs : Nat → List (Nat × Nat))
    (src tgt : Nat) (hV : Closed V nbrs) (hsrc : src ∈ V) :
    shortest_path V nbrs src tgt ≠ .outOfFuel ∧
    (reachable nbrs src tgt →
      ∃ p, shortest_path V nbrs src tgt = .found p ∧ validPath nbrs src p tgt) ∧
    ((∃ E, shortest_path V nbrs src tgt = .noPath E) ↔ ¬ reachable nbrs src tgt) := by
  obtain ⟨hnof, hfound, hnop⟩ :=
    run_spec stackPolicy_ok mkChildBFS_ok hV (V.length + 1)
      [SNode.root src 0 0] [] (inv_init nbrs src tgt V hsrc 0 0) (fuel_enough V)
  refine ⟨hnof, ?_, ?_⟩
  · intro hconn
    cases hres : shortest_path V nbrs src tgt with
    | found p => exact ⟨p, rfl, hfound p hres⟩
    | noPath E =>
      obtain ⟨hiff, htne⟩ := hnop E hres
      exact absurd ((hiff tgt).mpr hconn) htne
    | outOfFuel => exact absurd hres hnof
  · constructor
    · rintro ⟨E, hE⟩ hconn
      obtain ⟨hiff, htne⟩ := hnop E hE
      exact htne ((hiff tgt).mpr hconn)
    · intro hnr
      cases hres : shortest_path V nbrs src tgt with
      | found p => exact absurd ⟨p, hfound p hres⟩ hnr
      | noPath E => exact ⟨E, rfl⟩
      | outOfFuel => exact absurd hres hnof

theorem lifo_search_valid_witness :
    shortest_path exV exNbrs 0 1 ≠ .outOfFuel ∧
    (reachable exNbrs 0 1 →
      ∃ p, shortest_path exV exNbrs 0 1 = .found p ∧ validPath exNbrs 0 p 1) ∧
    ((∃ E, shortest_path exV exNbrs 0 1 = .noPath E) ↔ ¬ reachable exNbrs 0 1) :=
  lifo_search_valid exV exNbrs 0 1 (by decide) (by decide)

/-- C5: `remove()` on an empty frontier fails with the empty-frontier error
in all three policies — an `Except.error`, not a sentinel node. -/
theorem remove_empty_raises :
    stackRemove [] = .error "empty frontier" ∧
    queueRemove [] = .error "empty frontier" ∧
    astarRemove [] = .error "empty frontier" :=
  ⟨rfl, rfl, rfl⟩

/-- C6: whenever source equals target, every search variant (both source
functions and the three policy instances of the generic driver) returns the
empty path: zero degrees of separation. -/
theorem source_equals_target_empty (heur : Nat → Nat) (V : List Nat)
    (nbrs : Nat → List (Nat × Nat)) (src : Nat) :
    shortest_path V nbrs src src = .found [] ∧
    shortest_path_A_STAR heur V nbrs src src = .found [] ∧
    find_path stackPolicy heur V nbrs src src = .found [] ∧
    find_path queuePolicy heur V nbrs src src = .found [] ∧
    find_path astarPolicy heur V nbrs src src = .found [] := by
  have hstack : ∀ g f : Nat, stackPolicy [SNode.root src g f] =
      some (SNode.root src g f, []) := fun g f => rfl
  have hqueue : ∀ g f : Nat, queuePolicy [SNode.root src g f] =
      some (SNode.root src g f, []) := fun g f => rfl
  have hastar : ∀ g f : Nat, astarPolicy [SNode.root src g f] =
      some (SNode.root src g f, []) := fun g f => rfl
  exact ⟨graphSearch_found (hstack 0 0) rfl, graphSearch_found (hastar 0 (heur src)) rfl,
    graphSearch_found (hstack 0 (heur src)) rfl, graphSearch_found (hqueue 0 (heur src)) rfl,
    graphSearch_found (hastar 0 (heur src)) rfl⟩

/-- C7: on a non-empty priority frontier, `remove()` pops the node at
`minFIdx`: its `f` is a minimum of all contained `f`-values, and every
earlier-inserted node has a strictly larger `f`, so among ties the
earliest-inserted (first-scanned) minimum is returned. -/
theorem astar_remove_min (n : SNode) (rest : List SNode) :
    astarRemove (n :: rest) =
      .ok ((n :: rest).getD (minFIdx (n :: rest)) n,
        (n :: rest).eraseIdx (minFIdx (n :: rest))) ∧
    minFIdx (n :: rest) < (n :: rest).length ∧
    (∀ j, j < (n :: rest).length →
      ((n :: rest).getD (minFIdx (n :: rest)) n).f ≤ ((n :: rest).getD j n).f) ∧
    (∀ j, j < minFIdx (n :: rest) →
      ((n :: rest).getD (minFIdx (n :: rest)) n).f < ((n :: rest).getD j n).f) :=
  ⟨astarRemove_eq n rest, minFIdx_lt _ (by simp),
    fun j hj => minFIdx_min (n :: rest) n j hj,
    fun j hj => minFIdx_first (n :: rest) n j hj⟩

/-- C8: `contains_state` answers exactly current membership — for any
frontier value, and in particular for the frontier reached by any successful
sequence of add/remove operations under any of the three variants. -/
theorem contains_state_exact :
    (∀ (fr : List SNode) (s : Nat),
      contains_state s fr = true ↔ ∃ n ∈ fr, n.state = s) ∧
    (∀ remove,
      remove = stackRemove ∨ remove = queueRemove ∨ remove = astarRemove →
      ∀ (ops : List FrontierOp) (fr₀ fr : List SNode) (s : Nat),
        applyOps remove ops fr₀ = some fr →
        (contains_state s fr = true ↔ ∃ n ∈ fr, n.state = s)) := by
  have base : ∀ (fr : List SNode) (s : Nat),
      contains_state s fr = true ↔ ∃ n ∈ fr, n.state = s := by
    intro fr s
    rw [contains_state_iff]
    constructor
    · intro h
      obtain ⟨n, hn, hns⟩ := List.mem_map.mp h
      exact ⟨n, hn, hns⟩
    · rintro ⟨n, hn, hns⟩
      exact List.mem_map.mpr ⟨n, hn, hns⟩
  exact ⟨base, fun _ _ _ _ fr s _ => base fr s⟩

theorem contains_state_exact_witness :
    contains_state 1 [SNode.root 0 0 5] = true ↔
      ∃ n ∈ [SNode.root 0 0 5], n.state = 1 :=
  contains_state_exact.2 stackRemove (Or.inl rfl)
    [FrontierOp.push (SNode.root 0 0 5)] [] [SNode.root 0 0 5] 1 rfl

/-- C9: for membership purposes two nodes are interchangeable exactly when
their `state` fields are equal — `contains_state` consults nothing else, so
parent, action, `g` and `f` are irrelevant. -/
theorem membership_by_state_only (n₁ n₂ : SNode) :
    (∀ (fr : List SNode) (s : Nat),
      contains_state s (fr ++ [n₁]) = contains_state s (fr ++ [n₂])) ↔
      n₁.state = n₂.state := by
  constructor
  · intro h
    have h1 := h [] n₁.state
    have hc1 : contains_state n₁.state [n₁] = true := by
      rw [contains_state_iff]
      simp
    rw [List.nil_append, List.nil_append, hc1] at h1
    have := (contains_state_iff n₁.state [n₂]).mp h1.symm
    simpa using this
  · intro hst fr s
    unfold contains_state
    rw [List.any_append, List.any_append]
    simp [hst]

/-- C10, counterexample: load one person `1`, no movies, and the stars row
`(person 1, movie 2)`.  The first `add` of the `try` block puts movie `2`
into person `1`'s movie set before the second `add` raises, so the loaded
graph has `2` in the movie set of `1` while `neighbors_for_person(1)` raises
`KeyError` (returns `none`) instead of containing the pair `(2, 1)`. -/
theorem neighbors_self_loop_cex :
    lookupTbl 1 (load_data [1] [] [(1, 2)]).1 = some [2] ∧
    ¬ ∃ res, neighbors_for_person (load_data [1] [] [(1, 2)]).1
      (load_data [1] [] [(1, 2)]).2 1 = some res ∧ (2, 1) ∈ res := by
  refine ⟨rfl, ?_⟩
  rintro ⟨res, hres, _⟩
  have hnone : neighbors_for_person (load_data [1] [] [(1, 2)]).1
      (load_data [1] [] [(1, 2)]).2 1 = none := rfl
  rw [hnone] at hres
  exact Option.noConfusion hres

/-- C10, amended: for every person `p` of the loaded graph and movie `m` in
`p`'s movie set, *provided every movie of `p`'s set is a key of the movies
table* (so `neighbors_for_person` does not raise `KeyError`), the computed
neighbour set contains the pair `(m, p)` itself — the self-loop the claim
describes. -/
theorem neighbors_self_loop (peopleRows moviesRows : List Nat)
    (starRows : List (Nat × Nat)) (p m : Nat) (l : List Nat)
    (hp : lookupTbl p (load_data peopleRows moviesRows starRows).1 = some l)
    (hm : m ∈ l)
    (hall : ∀ mid ∈ l, ∃ s,
      lookupTbl mid (load_data peopleRows moviesRows starRows).2 = some s) :
    ∃ res, neighbors_for_person (load_data peopleRows moviesRows starRows).1
      (load_data peopleRows moviesRows starRows).2 p = some res ∧ (m, p) ∈ res := by
  obtain ⟨s, hs⟩ := hall m hm
  have hinv := load_data_starInv peopleRows moviesRows starRows
  have hps : p ∈ s := hinv p l m hp hm s hs
  obtain ⟨res, hres, hmem⟩ := neighbors_for_person_mem
    (load_data peopleRows moviesRows starRows).1
    (load_data peopleRows moviesRows starRows).2 p l hp hall
  exact ⟨res, hres, hmem m hm s hs p hps⟩

theorem neighbors_self_loop_witness :
    ∃ res, neighbors_for_person (load_data [1] [2] [(1, 2)]).1
      (load_data [1] [2] [(1, 2)]).2 1 = some res ∧ (2, 1) ∈ res :=
  neighbors_self_loop [1] [2] [(1, 2)] 1 2 [2] rfl (by decide)
    (by
      intro mid hmid
      have : mid = 2 := by simpa using hmid
      subst this
      exact ⟨[1], rfl⟩)

end Degrees
